import Mathlib

/-
  Verification of the ContinuousC Graph library (arena-based graph
  container with generation-tagged handles, keyed index wrappers and
  reference-by-key resolution).

  The Rust sources are embedded shallowly:
  * machine pointers into the arena become slot indices (`Nat`);
  * the process-wide generation counter becomes a `Nat` tag, with the
    reserved invalid value `0` (`Gen::invalid`);
  * panics (assertion failures and `unwrap` on `None`) are modelled by
    operations returning `Option`/pairs with an `Option` error, where
    `none` marks the panic.
-/

namespace GraphLib

/-- Generation-tag equality as implemented by `impl PartialEq for Gen`
(src/gen.rs): `self.0 != 0 && self.0 == other.0`.  The zero tag is the
invalid/dangling sentinel and never compares equal, not even to itself. -/
def genEq (a b : Nat) : Bool := a != 0 && a == b

/-- A handle (`Ref<T>` in src/reference.rs): the `NonNull` slot pointer is
modelled as the slot's index in the owning arena, together with the
generation tag of the arena that issued it. -/
structure Ref where
  slot : Nat
  gen : Nat
deriving DecidableEq, Repr

/-- Handle equality as implemented by `impl PartialEq for Ref`
(src/reference.rs): `self.gen == other.gen && self.value == other.value`,
where the generation comparison is `genEq`. -/
def refEqB (a b : Ref) : Bool := genEq a.gen b.gen && a.slot == b.slot

/-- The dangling sentinel handle (`Ref::dangling`): an arbitrary slot
address with the invalid generation tag `0`. -/
def Ref.dangling : Ref := ⟨0, 0⟩

/-- The arena (`Graph<T>` in src/graph.rs): an append-only sequence of
slots, each holding `Option<T>`, stamped with one generation tag. -/
structure Graph (T : Type) where
  nodes : List (Option T)
  gen : Nat

/-- Reading a slot through a handle's pointer
(`Ref::try_get_unchecked`): the content of slot `i`, or `none` when the
slot is empty (out-of-bounds reads cannot occur for genuinely issued
handles and are also mapped to `none`). -/
def Graph.slotValue {T : Type} (g : Graph T) (i : Nat) : Option T :=
  match g.nodes[i]? with
  | some (some v) => some v
  | _ => none

/-- `Graph::insert`: append a filled slot, return its handle. -/
def Graph.insert {T : Type} (g : Graph T) (v : T) : Graph T × Ref :=
  (⟨g.nodes ++ [some v], g.gen⟩, ⟨g.nodes.length, g.gen⟩)

/-- `Graph::promise`: append an empty slot, return its handle. -/
def Graph.promise {T : Type} (g : Graph T) : Graph T × Ref :=
  (⟨g.nodes ++ [none], g.gen⟩, ⟨g.nodes.length, g.gen⟩)

/-- `Graph::create`: assert the generation matches, then
`try_replace_unchecked` and assert the previous content was `None`.
`none` models the panic (foreign generation tag or already-filled slot). -/
def Graph.create {T : Type} (g : Graph T) (r : Ref) (v : T) : Option (Graph T) :=
  if genEq g.gen r.gen then
    match g.nodes[r.slot]? with
    | some none => some ⟨g.nodes.set r.slot (some v), g.gen⟩
    | _ => none
  else none

/-- `Graph::remove`: assert the generation matches, then
`try_remove_unchecked().unwrap()`; panics (`none`) on a foreign tag or an
empty slot. -/
def Graph.remove {T : Type} (g : Graph T) (r : Ref) : Option (T × Graph T) :=
  if genEq g.gen r.gen then
    match g.nodes[r.slot]? with
    | some (some v) => some (v, ⟨g.nodes.set r.slot none, g.gen⟩)
    | _ => none
  else none

/-- `Graph::borrow`: assert `self.gen == node.gen` (which is `genEq`),
then `try_get_unchecked().unwrap()`; `none` models the panic. -/
def Graph.borrow {T : Type} (g : Graph T) (r : Ref) : Option T :=
  if genEq g.gen r.gen then g.slotValue r.slot else none

/-- The global generation counter (`static GENERATION: AtomicU64 =
AtomicU64::new(1)`): `Gen::new` returns the current counter and
increments it. -/
def genNew (counter : Nat) : Nat × Nat := (counter, counter + 1)

/-- Every generation tag issued from a counter state that started at 1 is
nonzero, so a real arena's tag never equals the invalid tag `0`. -/
theorem genNew_ne_zero (counter : Nat) (h : 1 ≤ counter) : (genNew counter).1 ≠ 0 := by
  simp only [genNew]
  omega

/-- Helper: `genEq` spelled out as a proposition. -/
theorem genEq_eq_true_iff (a b : Nat) : genEq a b = true ↔ a ≠ 0 ∧ a = b := by
  simp [genEq]

/-- C1: borrowing a handle from an arena succeeds, returning the slot's
value, iff the handle's generation tag equals the arena's tag and the
handle's slot currently holds a value; in every other case (foreign tag,
dangling sentinel tag, empty slot) the call panics.  A dangling handle
(zero tag) is never valid against any arena. -/
theorem borrow_succeeds_iff {T : Type} (g : Graph T) (r : Ref) (hg : g.gen ≠ 0) :
    ((g.borrow r).isSome ↔ r.gen = g.gen ∧ (g.slotValue r.slot).isSome) ∧
    (∀ v, g.borrow r = some v → g.slotValue r.slot = some v) ∧
    (r.gen = 0 → g.borrow r = none) := by
  refine ⟨?_, ?_, ?_⟩
  · constructor
    · intro h
      by_cases hc : genEq g.gen r.gen = true
      · have hb : g.borrow r = g.slotValue r.slot := by simp [Graph.borrow, hc]
        rw [genEq_eq_true_iff] at hc
        exact ⟨hc.2.symm, by rwa [hb] at h⟩
      · have hb : g.borrow r = none := by simp [Graph.borrow, hc]
        rw [hb] at h
        simp at h
    · rintro ⟨h1, h2⟩
      have hc : genEq g.gen r.gen = true := (genEq_eq_true_iff _ _).mpr ⟨hg, h1.symm⟩
      have hb : g.borrow r = g.slotValue r.slot := by simp [Graph.borrow, hc]
      rwa [hb]
  · intro v h
    by_cases hc : genEq g.gen r.gen = true
    · have hb : g.borrow r = g.slotValue r.slot := by simp [Graph.borrow, hc]
      rwa [hb] at h
    · have hb : g.borrow r = none := by simp [Graph.borrow, hc]
      rw [hb] at h
      simp at h
  · intro h0
    have hc : genEq g.gen r.gen = false := by
      simp [genEq, h0]
    simp [Graph.borrow, hc]

/-- Witness for C1 at a concrete arena and handle. -/
theorem borrow_succeeds_iff_witness :
    ((1 : Nat) ≠ 0) ∧
    ((((⟨[some 5], 1⟩ : Graph Nat).borrow ⟨0, 1⟩).isSome ↔
        (⟨0, 1⟩ : Ref).gen = 1 ∧ ((⟨[some 5], 1⟩ : Graph Nat).slotValue 0).isSome) ∧
      (∀ v, (⟨[some 5], 1⟩ : Graph Nat).borrow ⟨0, 1⟩ = some v →
        (⟨[some 5], 1⟩ : Graph Nat).slotValue 0 = some v) ∧
      ((⟨0, 1⟩ : Ref).gen = 0 → (⟨[some 5], 1⟩ : Graph Nat).borrow ⟨0, 1⟩ = none)) :=
  ⟨by decide, borrow_succeeds_iff (⟨[some 5], 1⟩ : Graph Nat) ⟨0, 1⟩ (by decide)⟩

/-- C3: after `promise`, borrowing the promised handle panics (the slot is
empty); after `create` fills it with `v`, borrowing succeeds and returns
exactly `v`. -/
theorem promise_create_borrow {T : Type} (g : Graph T) (v : T) (hg : g.gen ≠ 0) :
    (g.promise.1.borrow g.promise.2 = none) ∧
    ∃ g2, g.promise.1.create g.promise.2 v = some g2 ∧ g2.borrow g.promise.2 = some v := by
  have hc : genEq g.gen g.gen = true := (genEq_eq_true_iff _ _).mpr ⟨hg, rfl⟩
  have hlookup : (g.nodes ++ [(none : Option T)])[g.nodes.length]? = some none :=
    List.getElem?_concat_length _ _
  constructor
  · simp [Graph.promise, Graph.borrow, hc, Graph.slotValue, hlookup]
  · refine ⟨⟨(g.nodes ++ [none]).set g.nodes.length (some v), g.gen⟩, ?_, ?_⟩
    · simp [Graph.promise, Graph.create, hc, hlookup]
    · have hset : ((g.nodes ++ [(none : Option T)]).set g.nodes.length
          (some v))[g.nodes.length]? = some (some v) := by
        apply List.getElem?_set_eq_of_lt
        simp
      simp [Graph.promise, Graph.borrow, hc, Graph.slotValue, hset]

/-- Witness for C3 at a concrete arena. -/
theorem promise_create_borrow_witness :
    ((1 : Nat) ≠ 0) ∧
    (((⟨[], 1⟩ : Graph Nat).promise.1.borrow (⟨[], 1⟩ : Graph Nat).promise.2 = none) ∧
      ∃ g2, (⟨[], 1⟩ : Graph Nat).promise.1.create (⟨[], 1⟩ : Graph Nat).promise.2 7 = some g2 ∧
        g2.borrow (⟨[], 1⟩ : Graph Nat).promise.2 = some 7) :=
  ⟨by decide, promise_create_borrow (⟨[], 1⟩ : Graph Nat) 7 (by decide)⟩

/-- The assertion of `Graph::borrow_many_mut` (src/graph.rs):
`nodes.iter().enumerate().all(|(i, node)| self.gen == node.gen &&
nodes[..i].iter().all(|other| other != node))`.  `prev` carries the
already-visited handles `nodes[..i]`. -/
def checkFrom (gn : Nat) : List Ref → List Ref → Bool
  | _, [] => true
  | prev, r :: rest =>
    (genEq gn r.gen && prev.all fun o => !refEqB o r) && checkFrom gn (prev ++ [r]) rest

/-- The whole batch check of `Graph::borrow_many_mut`. -/
def checkMany (gn : Nat) (rs : List Ref) : Bool := checkFrom gn [] rs

/-- Dereference every handle in the batch: the
`nodes.map(|node| node.try_get_unchecked_mut().unwrap())` step, where the
`unwrap` panics (`none`) on any empty slot. -/
def Graph.borrowAll {T : Type} (g : Graph T) : List Ref → Option (List T)
  | [] => some []
  | r :: rest =>
    match g.slotValue r.slot with
    | some v => (g.borrowAll rest).map (v :: ·)
    | none => none

/-- `Graph::borrow_many_mut`: assert the batch check, then dereference
each handle; the returned mutable references are modelled by the list of
the referenced values. -/
def Graph.borrowManyMut {T : Type} (g : Graph T) (rs : List Ref) : Option (List T) :=
  if checkMany g.gen rs then g.borrowAll rs else none

/-- Helper: unfolding of the batch check into membership facts. -/
theorem checkFrom_iff (gn : Nat) (prev rest : List Ref) :
    checkFrom gn prev rest = true ↔
      (∀ r ∈ rest, genEq gn r.gen = true) ∧
      (∀ r ∈ rest, ∀ o ∈ prev, refEqB o r = false) ∧
      List.Pairwise (fun a b => refEqB a b = false) rest := by
  induction rest generalizing prev with
  | nil => simp [checkFrom]
  | cons r rest ih =>
    simp only [checkFrom, Bool.and_eq_true, List.all_eq_true, Bool.not_eq_true',
      ih, List.pairwise_cons, List.mem_cons, List.mem_append, List.mem_singleton,
      List.not_mem_nil, or_false]
    constructor
    · rintro ⟨⟨hgen, hprev⟩, hrest_gen, hrest_prev, hpair⟩
      refine ⟨?_, ?_, ?_, ?_⟩
      · rintro r' (rfl | hr')
        · exact hgen
        · exact hrest_gen r' hr'
      · rintro r' (rfl | hr') o ho
        · exact hprev o ho
        · exact hrest_prev r' hr' o (Or.inl ho)
      · intro b hb
        exact hrest_prev b hb r (Or.inr rfl)
      · exact hpair
    · rintro ⟨hgen, hprev, hhead, hpair⟩
      refine ⟨⟨hgen r (Or.inl rfl), fun o ho => hprev r (Or.inl rfl) o ho⟩, ?_, ?_, hpair⟩
      · intro r' hr'
        exact hgen r' (Or.inr hr')
      · rintro r' hr' o (ho | rfl)
        · exact hprev r' (Or.inr hr') o ho
        · exact hhead r' hr'

/-- Helper: with both tags equal to a nonzero arena tag, handle
inequality is exactly slot inequality. -/
theorem refEqB_false_iff (gn : Nat) (hg : gn ≠ 0) (a b : Ref)
    (ha : a.gen = gn) (hb : b.gen = gn) : refEqB a b = false ↔ a.slot ≠ b.slot := by
  simp [refEqB, genEq, ha, hb, hg]

/-- Helper: the batch dereference succeeds iff every referenced slot is
occupied. -/
theorem borrowAll_isSome_iff {T : Type} (g : Graph T) (rs : List Ref) :
    (g.borrowAll rs).isSome ↔ ∀ r ∈ rs, (g.slotValue r.slot).isSome := by
  induction rs with
  | nil => simp [Graph.borrowAll]
  | cons r rest ih =>
    cases h : g.slotValue r.slot with
    | none =>
      simp only [Graph.borrowAll, h]
      simp only [Option.isSome_none, Bool.false_eq_true, false_iff]
      intro hall
      have := hall r (List.mem_cons_self r rest)
      rw [h] at this
      simp at this
    | some v =>
      simp only [Graph.borrowAll, h]
      have hmap : ∀ o : Option (List T), (Option.map (fun x => v :: x) o).isSome = o.isSome := by
        intro o
        cases o <;> rfl
      rw [hmap, ih]
      constructor
      · intro hall r' hr'
        rcases List.mem_cons.mp hr' with rfl | hr'
        · rw [h]
          rfl
        · exact hall r' hr'
      · intro hall r' hr'
        exact hall r' (List.mem_cons_of_mem _ hr')

/-- Helper: the values returned by a successful batch dereference are the
slot contents, pointwise. -/
theorem borrowAll_get {T : Type} (g : Graph T) (rs : List Ref) (vs : List T)
    (h : g.borrowAll rs = some vs) :
    vs.length = rs.length ∧ ∀ (i : Nat) (r : Ref), rs[i]? = some r → vs[i]? = g.slotValue r.slot := by
  induction rs generalizing vs with
  | nil =>
    simp only [Graph.borrowAll, Option.some_inj] at h
    subst h
    simp
  | cons r rest ih =>
    cases hv : g.slotValue r.slot with
    | none => simp [Graph.borrowAll, hv] at h
    | some v =>
      simp only [Graph.borrowAll, hv, Option.map_eq_some'] at h
      obtain ⟨vs', hvs', rfl⟩ := h
      obtain ⟨hlen, hget⟩ := ih vs' hvs'
      constructor
      · simp [hlen]
      · intro i r' hr'
        cases i with
        | zero =>
          rw [List.getElem?_cons_zero] at hr'
          cases hr'
          simpa using hv.symm
        | succ n =>
          rw [List.getElem?_cons_succ] at hr' ⊢
          exact hget n r' hr'

/-- C7 (amended): `borrow_many_mut` succeeds iff every handle's tag equals
the arena's tag, no two handles in the batch refer to the same slot, AND
every referenced slot is occupied; on success it returns one value per
requested slot, in order. -/
theorem borrow_many_mut_spec {T : Type} (g : Graph T) (rs : List Ref) (hg : g.gen ≠ 0) :
    ((g.borrowManyMut rs).isSome ↔
      (∀ r ∈ rs, r.gen = g.gen) ∧ List.Pairwise (fun a b => a.slot ≠ b.slot) rs ∧
        ∀ r ∈ rs, (g.slotValue r.slot).isSome) ∧
    (∀ vs, g.borrowManyMut rs = some vs →
      vs.length = rs.length ∧ ∀ (i : Nat) (r : Ref), rs[i]? = some r → vs[i]? = g.slotValue r.slot) := by
  have hcheck : checkMany g.gen rs = true ↔
      (∀ r ∈ rs, r.gen = g.gen) ∧ List.Pairwise (fun a b => a.slot ≠ b.slot) rs := by
    rw [checkMany, checkFrom_iff]
    constructor
    · rintro ⟨hgen, -, hpair⟩
      have hgen' : ∀ r ∈ rs, r.gen = g.gen := by
        intro r hr
        have := (genEq_eq_true_iff _ _).mp (hgen r hr)
        exact this.2.symm
      refine ⟨hgen', ?_⟩
      refine List.Pairwise.imp_of_mem ?_ hpair
      intro a b ha hb hab
      exact (refEqB_false_iff g.gen hg a b (hgen' a ha) (hgen' b hb)).mp hab
    · rintro ⟨hgen, hpair⟩
      refine ⟨?_, by simp, ?_⟩
      · intro r hr
        exact (genEq_eq_true_iff _ _).mpr ⟨hg, (hgen r hr).symm⟩
      · refine List.Pairwise.imp_of_mem ?_ hpair
        intro a b ha hb hab
        exact (refEqB_false_iff g.gen hg a b (hgen a ha) (hgen b hb)).mpr hab
  constructor
  · by_cases hc : checkMany g.gen rs = true
    · have hb : g.borrowManyMut rs = g.borrowAll rs := by
        simp [Graph.borrowManyMut, hc]
      rw [hb, borrowAll_isSome_iff]
      rw [← and_assoc] at *
      constructor
      · intro hocc
        exact ⟨hcheck.mp hc, hocc⟩
      · rintro ⟨-, hocc⟩
        exact hocc
    · have hb : g.borrowManyMut rs = none := by
        simp [Graph.borrowManyMut, hc]
      rw [hb]
      simp only [Option.isSome_none, Bool.false_eq_true, false_iff]
      rintro ⟨hgen, hpair, -⟩
      exact hc (hcheck.mpr ⟨hgen, hpair⟩)
  · intro vs hvs
    by_cases hc : checkMany g.gen rs = true
    · have hb : g.borrowManyMut rs = g.borrowAll rs := by
        simp [Graph.borrowManyMut, hc]
      rw [hb] at hvs
      exact borrowAll_get g rs vs hvs
    · have hb : g.borrowManyMut rs = none := by
        simp [Graph.borrowManyMut, hc]
      rw [hb] at hvs
      cases hvs

/-- Witness for the amended C7 at a concrete batch of two handles. -/
theorem borrow_many_mut_spec_witness :
    ((1 : Nat) ≠ 0) ∧
    ((((⟨[some 3, some 4], 1⟩ : Graph Nat).borrowManyMut [⟨0, 1⟩, ⟨1, 1⟩]).isSome ↔
      (∀ r ∈ [(⟨0, 1⟩ : Ref), ⟨1, 1⟩], r.gen = 1) ∧
        List.Pairwise (fun a b => a.slot ≠ b.slot) [(⟨0, 1⟩ : Ref), ⟨1, 1⟩] ∧
        ∀ r ∈ [(⟨0, 1⟩ : Ref), ⟨1, 1⟩],
          ((⟨[some 3, some 4], 1⟩ : Graph Nat).slotValue r.slot).isSome) ∧
    (∀ vs, (⟨[some 3, some 4], 1⟩ : Graph Nat).borrowManyMut [⟨0, 1⟩, ⟨1, 1⟩] = some vs →
      vs.length = ([(⟨0, 1⟩ : Ref), ⟨1, 1⟩] : List Ref).length ∧
        ∀ (i : Nat) (r : Ref), ([(⟨0, 1⟩ : Ref), ⟨1, 1⟩] : List Ref)[i]? = some r →
          vs[i]? = (⟨[some 3, some 4], 1⟩ : Graph Nat).slotValue r.slot)) :=
  ⟨by decide, borrow_many_mut_spec (⟨[some 3, some 4], 1⟩ : Graph Nat) [⟨0, 1⟩, ⟨1, 1⟩] (by decide)⟩

/-- C7 counterexample: one promised (empty) slot: the generation check and
the aliasing check both pass, yet the call panics, refuting the claim that
the call succeeds whenever the tags match and no two handles alias. -/
theorem borrow_many_mut_claim_cex :
    checkMany (⟨[none], 1⟩ : Graph Nat).gen [⟨0, 1⟩] = true ∧
    (∀ r ∈ [(⟨0, 1⟩ : Ref)], r.gen = (⟨[none], 1⟩ : Graph Nat).gen) ∧
    List.Pairwise (fun a b => a.slot ≠ b.slot) [(⟨0, 1⟩ : Ref)] ∧
    (⟨[none], 1⟩ : Graph Nat).borrowManyMut [⟨0, 1⟩] = none := by
  refine ⟨by decide, by decide, by decide, ?_⟩
  decide

/-- A keyed reference (`RefBy<K, V>` in src/reference.rs): a key together
with a cached handle.  The value type parameter plays no role in the
embedded behaviour and is dropped. -/
structure RefBy (K : Type) where
  key : K
  value : Ref
deriving DecidableEq, Repr

/-- `RefBy::resolve` (src/reference.rs).  The `IndexBy` capability
(src/index.rs) is exactly a key-to-handle lookup, modelled as a function
`K → Option Ref`.  On success the internal handle is replaced by the
handle found in the index; on failure the key is returned as the error
(second component) and the reference is returned unchanged. -/
def RefBy.resolve {K : Type} (r : RefBy K) (index : K → Option Ref) :
    RefBy K × Option K :=
  match index r.key with
  | some v => (⟨r.key, v⟩, none)
  | none => (r, some r.key)

/-- C4: resolving a `RefBy` against an index containing its key replaces
the internal handle with the one from the index and succeeds; when the key
is absent, the key is returned as the error and the `RefBy` is left
completely unchanged (key and handle). -/
theorem refby_resolve_spec {K : Type} (r : RefBy K) (index : K → Option Ref) :
    (∀ v, index r.key = some v → r.resolve index = (⟨r.key, v⟩, none)) ∧
    (index r.key = none → r.resolve index = (r, some r.key)) := by
  constructor
  · intro v h
    simp [RefBy.resolve, h]
  · intro h
    simp [RefBy.resolve, h]

/-- Witness for C4: a present key is rebound; an absent key is returned as
the error with the reference untouched. -/
theorem refby_resolve_spec_witness :
    ((fun k => if k = 0 then some (⟨4, 2⟩ : Ref) else none) (0 : Nat) = some ⟨4, 2⟩ ∧
      (⟨(0 : Nat), Ref.dangling⟩ : RefBy Nat).resolve
        (fun k => if k = 0 then some ⟨4, 2⟩ else none) = (⟨0, ⟨4, 2⟩⟩, none)) ∧
    ((fun (_ : Nat) => (none : Option Ref)) (0 : Nat) = none ∧
      (⟨(0 : Nat), Ref.dangling⟩ : RefBy Nat).resolve (fun _ => none) =
        (⟨0, Ref.dangling⟩, some 0)) :=
  ⟨⟨rfl, (refby_resolve_spec (⟨0, Ref.dangling⟩ : RefBy Nat)
      (fun k => if k = 0 then some ⟨4, 2⟩ else none)).1 ⟨4, 2⟩ rfl⟩,
    ⟨rfl, (refby_resolve_spec (⟨0, Ref.dangling⟩ : RefBy Nat) (fun _ => none)).2 rfl⟩⟩

/-- `RefMap::resolve` (src/refmap.rs): a `RefMap<K, V>` is a
`BTreeMap<K, Ref<V>>`, modelled by its key-ascending entry list.
`self.0.iter_mut().try_for_each(...)` walks the entries in ascending key
order, replacing each handle by the index's handle, and stops at the first
key the index does not contain, returning it as the error; entries from
the failing one onward keep their handles. -/
def resolveEntries {K : Type} (index : K → Option Ref) :
    List (K × Ref) → List (K × Ref) × Option K
  | [] => ([], none)
  | (k, r) :: rest =>
    match index k with
    | some v =>
      let res := resolveEntries index rest
      ((k, v) :: res.1, res.2)
    | none => ((k, r) :: rest, some k)

/-- Sortedness of a `RefMap` entry list: `BTreeMap` keeps keys in strictly
ascending order. -/
def EntriesSorted {K : Type} [LT K] (l : List (K × Ref)) : Prop :=
  List.Pairwise (fun a b => a.1 < b.1) l

/-- Helper: full characterisation of `resolveEntries` on a key-sorted
entry list. -/
theorem resolveEntries_full {K : Type} [LinearOrder K] (index : K → Option Ref)
    (l : List (K × Ref)) (hs : EntriesSorted l) :
    ((resolveEntries index l).2 = none ↔ ∀ p ∈ l, (index p.1).isSome) ∧
    ((resolveEntries index l).2 = none →
      (resolveEntries index l).1 = l.map fun p => (p.1, (index p.1).getD p.2)) ∧
    (∀ k, (resolveEntries index l).2 = some k →
      index k = none ∧ k ∈ l.map Prod.fst ∧
      (∀ p ∈ l, p.1 < k → (index p.1).isSome) ∧
      (resolveEntries index l).1 =
        l.map fun p => if p.1 < k then (p.1, (index p.1).getD p.2) else p) := by
  induction l with
  | nil => simp [resolveEntries]
  | cons hd rest ih =>
    obtain ⟨k0, r0⟩ := hd
    rw [EntriesSorted, List.pairwise_cons] at hs
    obtain ⟨hlt, hrest⟩ := hs
    obtain ⟨ih1, ih2, ih3⟩ := ih hrest
    cases h0 : index k0 with
    | none =>
      refine ⟨?_, ?_, ?_⟩
      · simp only [resolveEntries, h0]
        constructor
        · intro h
          cases h
        · intro hall
          have := hall (k0, r0) (List.mem_cons_self _ _)
          rw [h0] at this
          cases this
      · intro h
        simp only [resolveEntries, h0] at h
        cases h
      · intro k hk
        simp only [resolveEntries, h0, Option.some_inj] at hk
        subst hk
        refine ⟨h0, by simp, ?_, ?_⟩
        · intro p hp hpk
          rcases List.mem_cons.mp hp with rfl | hp'
          · exact absurd hpk (lt_irrefl _)
          · exact absurd hpk (not_lt_of_gt (hlt p hp'))
        · simp only [resolveEntries, h0]
          have : ∀ p ∈ (k0, r0) :: rest,
              (if p.1 < k0 then (p.1, (index p.1).getD p.2) else p) = p := by
            intro p hp
            rcases List.mem_cons.mp hp with rfl | hp'
            · simp
            · rw [if_neg (not_lt_of_gt (hlt p hp'))]
          rw [List.map_congr_left this]
          simp
    | some v =>
      refine ⟨?_, ?_, ?_⟩
      · simp only [resolveEntries, h0]
        rw [ih1]
        constructor
        · intro hall p hp
          rcases List.mem_cons.mp hp with rfl | hp'
          · rw [h0]
            rfl
          · exact hall p hp'
        · intro hall p hp
          exact hall p (List.mem_cons_of_mem _ hp)
      · intro h
        simp only [resolveEntries, h0] at h ⊢
        rw [ih2 h, List.map_cons]
        simp [h0]
      · intro k hk
        simp only [resolveEntries, h0] at hk ⊢
        obtain ⟨hnone, hmem, hearlier, hlist⟩ := ih3 k hk
        have hk0k : k0 < k := by
          rcases List.mem_map.mp hmem with ⟨p, hp, rfl⟩
          exact hlt p hp
        refine ⟨hnone, ?_, ?_, ?_⟩
        · simp only [List.map_cons, List.mem_cons]
          exact Or.inr hmem
        · intro p hp hpk
          rcases List.mem_cons.mp hp with rfl | hp'
          · rw [h0]
            rfl
          · exact hearlier p hp' hpk
        · rw [List.map_cons, if_pos hk0k, hlist, h0]
          rfl

/-- C5: resolving a `RefMap` walks its entries in ascending key order,
updating each handle from the index; it returns `none` (Ok) iff every key
is present, in which case all handles are updated; otherwise it returns
the first (least) key absent from the index, every key below it being
present and already updated, while no later entry is processed. -/
theorem refmap_resolve_spec {K : Type} [LinearOrder K] (index : K → Option Ref)
    (l : List (K × Ref)) (hs : EntriesSorted l) :
    ((resolveEntries index l).2 = none ↔ ∀ p ∈ l, (index p.1).isSome) ∧
    ((resolveEntries index l).2 = none →
      (resolveEntries index l).1 = l.map fun p => (p.1, (index p.1).getD p.2)) ∧
    (∀ k, (resolveEntries index l).2 = some k →
      index k = none ∧ k ∈ l.map Prod.fst ∧
      (∀ p ∈ l, p.1 < k → (index p.1).isSome) ∧
      (resolveEntries index l).1 =
        l.map fun p => if p.1 < k then (p.1, (index p.1).getD p.2) else p) := by
  exact resolveEntries_full index l hs

/-- Witness for C5: with keys 0, 1 and an index containing only 0, the
resolve stops at 1. -/
theorem refmap_resolve_spec_witness :
    EntriesSorted [((0 : Nat), Ref.dangling), (1, Ref.dangling)] ∧
    (((resolveEntries (fun k => if k = 0 then some (⟨4, 2⟩ : Ref) else none)
        [((0 : Nat), Ref.dangling), (1, Ref.dangling)]).2 = none ↔
      ∀ p ∈ [((0 : Nat), Ref.dangling), (1, Ref.dangling)],
        ((fun k => if k = 0 then some (⟨4, 2⟩ : Ref) else none) p.1).isSome) ∧
    (((resolveEntries (fun k => if k = 0 then some (⟨4, 2⟩ : Ref) else none)
        [((0 : Nat), Ref.dangling), (1, Ref.dangling)]).2 = none →
      (resolveEntries (fun k => if k = 0 then some (⟨4, 2⟩ : Ref) else none)
        [((0 : Nat), Ref.dangling), (1, Ref.dangling)]).1 =
        [((0 : Nat), Ref.dangling), (1, Ref.dangling)].map fun p =>
          (p.1, ((fun k => if k = 0 then some (⟨4, 2⟩ : Ref) else none) p.1).getD p.2)) ∧
    ∀ k, (resolveEntries (fun k => if k = 0 then some (⟨4, 2⟩ : Ref) else none)
        [((0 : Nat), Ref.dangling), (1, Ref.dangling)]).2 = some k →
      (fun k => if k = 0 then some (⟨4, 2⟩ : Ref) else none) k = none ∧
      k ∈ [((0 : Nat), Ref.dangling), (1, Ref.dangling)].map Prod.fst ∧
      (∀ p ∈ [((0 : Nat), Ref.dangling), (1, Ref.dangling)], p.1 < k →
        ((fun k => if k = 0 then some (⟨4, 2⟩ : Ref) else none) p.1).isSome) ∧
      (resolveEntries (fun k => if k = 0 then some (⟨4, 2⟩ : Ref) else none)
        [((0 : Nat), Ref.dangling), (1, Ref.dangling)]).1 =
        [((0 : Nat), Ref.dangling), (1, Ref.dangling)].map fun p =>
          if p.1 < k then
            (p.1, ((fun k => if k = 0 then some (⟨4, 2⟩ : Ref) else none) p.1).getD p.2)
          else p)) :=
  ⟨by unfold EntriesSorted; decide,
    refmap_resolve_spec (fun k => if k = 0 then some (⟨4, 2⟩ : Ref) else none)
      [((0 : Nat), Ref.dangling), (1, Ref.dangling)]
      (by unfold EntriesSorted; decide)⟩

/-- C10: when resolving a `RefMap` fails with key `k`, the entries whose
key is strictly below `k` have already been updated from the index, while
the entry for `k` and all later entries keep their previous handles: the
map is left partially updated. -/
theorem refmap_resolve_frame {K : Type} [LinearOrder K] (index : K → Option Ref)
    (l : List (K × Ref)) (hs : EntriesSorted l) (k : K)
    (herr : (resolveEntries index l).2 = some k) :
    (resolveEntries index l).1 =
      l.map fun p => if p.1 < k then (p.1, (index p.1).getD p.2) else p :=
  ((resolveEntries_full index l hs).2.2 k herr).2.2.2

/-- Witness for C10: resolving keys 0, 2, 3 against an index containing
only 0 and 3 fails at 2, leaving entry 0 updated and entries 2, 3
untouched. -/
theorem refmap_resolve_frame_witness :
    EntriesSorted [((0 : Nat), Ref.dangling), (2, Ref.dangling), (3, Ref.dangling)] ∧
    (resolveEntries (fun k => if k = 0 ∨ k = 3 then some (⟨4, 2⟩ : Ref) else none)
      [((0 : Nat), Ref.dangling), (2, Ref.dangling), (3, Ref.dangling)]).2 = some 2 ∧
    (resolveEntries (fun k => if k = 0 ∨ k = 3 then some (⟨4, 2⟩ : Ref) else none)
      [((0 : Nat), Ref.dangling), (2, Ref.dangling), (3, Ref.dangling)]).1 =
      [((0 : Nat), Ref.dangling), (2, Ref.dangling), (3, Ref.dangling)].map fun p =>
        if p.1 < 2 then
          (p.1, ((fun k => if k = 0 ∨ k = 3 then some (⟨4, 2⟩ : Ref) else none) p.1).getD p.2)
        else p :=
  ⟨by unfold EntriesSorted; decide, by decide,
    refmap_resolve_frame (fun k => if k = 0 ∨ k = 3 then some (⟨4, 2⟩ : Ref) else none)
      [((0 : Nat), Ref.dangling), (2, Ref.dangling), (3, Ref.dangling)]
      (by unfold EntriesSorted; decide) 2 (by decide)⟩

/-- Equality of `RefMap`s as implemented by `impl PartialEq for RefMap`
(src/refmap.rs): `self.0.len() == other.0.len() &&
self.0.keys().zip(other.0.keys()).all(|(a, b)| a == b)` — handles are
never compared. -/
def refMapBeq {K : Type} [DecidableEq K] (a b : List (K × Ref)) : Bool :=
  a.length == b.length &&
    ((a.map Prod.fst).zip (b.map Prod.fst)).all fun p => p.1 == p.2

/-- Helper: equal lengths plus pointwise-equal zip is list equality. -/
theorem length_zip_eq_iff {K : Type} (xs ys : List K) :
    (xs.length = ys.length ∧ ∀ p ∈ xs.zip ys, p.1 = p.2) ↔ xs = ys := by
  induction xs generalizing ys with
  | nil =>
    cases ys <;> simp
  | cons x xs ih =>
    cases ys with
    | nil => simp
    | cons y ys =>
      simp only [List.length_cons, List.zip_cons_cons, List.mem_cons, add_left_inj,
        List.cons.injEq]
      constructor
      · rintro ⟨hlen, hall⟩
        refine ⟨hall (x, y) (Or.inl rfl), ?_⟩
        exact (ih ys).mp ⟨hlen, fun p hp => hall p (Or.inr hp)⟩
      · rintro ⟨rfl, rfl⟩
        refine ⟨rfl, ?_⟩
        rintro p (rfl | hp)
        · rfl
        · exact ((ih xs).mpr rfl).2 p hp

/-- C8: two `RefMap`s compare equal iff they hold exactly the same keys in
the same order; the handles stored under the keys are irrelevant. -/
theorem refmap_eq_iff_keys {K : Type} [DecidableEq K] (a b : List (K × Ref)) :
    refMapBeq a b = true ↔ a.map Prod.fst = b.map Prod.fst := by
  rw [← length_zip_eq_iff]
  simp [refMapBeq, List.all_eq_true, beq_iff_eq, Bool.and_eq_true]

/-- `BTreeMap::insert` on the key-sorted entry list: returns the new list
and the value previously stored under the key, if any. -/
def sortedInsert {K α : Type} [LinearOrder K] (k : K) (v : α) :
    List (K × α) → List (K × α) × Option α
  | [] => ([(k, v)], none)
  | p :: rest =>
    if k < p.1 then ((k, v) :: p :: rest, none)
    else if k = p.1 then ((k, v) :: rest, some p.2)
    else
      let res := sortedInsert k v rest
      (p :: res.1, res.2)

/-- Map lookup (`BTreeMap::get` / `HashMap::get`) on an entry list. -/
def lookupKey {K α : Type} [DecidableEq K] (k : K) : List (K × α) → Option α
  | [] => none
  | p :: rest => if p.1 = k then some p.2 else lookupKey k rest

/-- `HashMap::insert` observed through `get`: replace the entry for the
key in place (or append it), returning the previous value, if any. -/
def assocInsert {K α : Type} [DecidableEq K] (k : K) (v : α) :
    List (K × α) → List (K × α) × Option α
  | [] => ([(k, v)], none)
  | p :: rest =>
    if p.1 = k then ((k, v) :: rest, some p.2)
    else
      let res := assocInsert k v rest
      (p :: res.1, res.2)

/-- A keyed graph (`BTreeGraph<K, V>`, src/btree_graph.rs): an arena plus
a `BTreeMap` index from keys to handles, modelled by its key-sorted entry
list. -/
structure BTreeGraph (K V : Type) where
  graph : Graph V
  index : List (K × Ref)

/-- A keyed graph with a hashed index (`HashGraph<K, V>`,
src/hash_graph.rs): structurally identical to `BTreeGraph`, over an
unordered index. -/
structure HashGraph (K V : Type) where
  graph : Graph V
  index : List (K × Ref)

/-- `BTreeGraph::insert`: insert the value into the arena, install the
new handle under the key; if the key was already bound, clear the old
handle's slot with `try_remove_unchecked().unwrap()` — `none` models the
panic of that `unwrap` when the old slot is already empty. -/
def BTreeGraph.insert {K V : Type} [LinearOrder K] (g : BTreeGraph K V) (k : K) (v : V) :
    Option (BTreeGraph K V × Ref) :=
  let gr := (g.graph.insert v).1
  let node := (g.graph.insert v).2
  let res := sortedInsert k node g.index
  match res.2 with
  | none => some (⟨gr, res.1⟩, node)
  | some oldNode =>
    match gr.nodes[oldNode.slot]? with
    | some (some _) => some (⟨⟨gr.nodes.set oldNode.slot none, gr.gen⟩, res.1⟩, node)
    | _ => none

/-- `BTreeGraph::promise`: reserve an empty slot under the key, clearing a
previously bound slot exactly as `insert` does. -/
def BTreeGraph.promise {K V : Type} [LinearOrder K] (g : BTreeGraph K V) (k : K) :
    Option (BTreeGraph K V × Ref) :=
  let gr := g.graph.promise.1
  let node := g.graph.promise.2
  let res := sortedInsert k node g.index
  match res.2 with
  | none => some (⟨gr, res.1⟩, node)
  | some oldNode =>
    match gr.nodes[oldNode.slot]? with
    | some (some _) => some (⟨⟨gr.nodes.set oldNode.slot none, gr.gen⟩, res.1⟩, node)
    | _ => none

/-- `HashGraph::insert` (src/hash_graph.rs): same contract as
`BTreeGraph::insert` over the unordered index. -/
def HashGraph.insert {K V : Type} [DecidableEq K] (g : HashGraph K V) (k : K) (v : V) :
    Option (HashGraph K V × Ref) :=
  let gr := (g.graph.insert v).1
  let node := (g.graph.insert v).2
  let res := assocInsert k node g.index
  match res.2 with
  | none => some (⟨gr, res.1⟩, node)
  | some oldNode =>
    match gr.nodes[oldNode.slot]? with
    | some (some _) => some (⟨⟨gr.nodes.set oldNode.slot none, gr.gen⟩, res.1⟩, node)
    | _ => none

/-- `HashGraph::promise` (src/hash_graph.rs). -/
def HashGraph.promise {K V : Type} [DecidableEq K] (g : HashGraph K V) (k : K) :
    Option (HashGraph K V × Ref) :=
  let gr := g.graph.promise.1
  let node := g.graph.promise.2
  let res := assocInsert k node g.index
  match res.2 with
  | none => some (⟨gr, res.1⟩, node)
  | some oldNode =>
    match gr.nodes[oldNode.slot]? with
    | some (some _) => some (⟨⟨gr.nodes.set oldNode.slot none, gr.gen⟩, res.1⟩, node)
    | _ => none

/-- Helper: a previous value reported by `sortedInsert` was an entry of
the list. -/
theorem sortedInsert_old_mem {K α : Type} [LinearOrder K] (k : K) (v o : α)
    (l : List (K × α)) (h : (sortedInsert k v l).2 = some o) : (k, o) ∈ l := by
  induction l with
  | nil => simp [sortedInsert] at h
  | cons p rest ih =>
    by_cases h1 : k < p.1
    · simp [sortedInsert, h1] at h
    · by_cases h2 : k = p.1
      · simp only [sortedInsert, if_neg h1, if_pos h2, Option.some_inj] at h
        subst h
        subst h2
        exact List.mem_cons_self _ _
      · simp only [sortedInsert, if_neg h1, if_neg h2] at h
        exact List.mem_cons_of_mem _ (ih h)

/-- Helper: inserting the same key twice reports the first inserted value
as the previous value. -/
theorem sortedInsert_again {K α : Type} [LinearOrder K] (k : K) (v v' : α)
    (l : List (K × α)) :
    (sortedInsert k v' (sortedInsert k v l).1).2 = some v := by
  induction l with
  | nil => simp [sortedInsert]
  | cons p rest ih =>
    by_cases h1 : k < p.1
    · simp [sortedInsert, h1, lt_irrefl]
    · by_cases h2 : k = p.1
      · simp [sortedInsert, if_neg h1, h2, lt_irrefl]
      · simp only [sortedInsert, if_neg h1, if_neg h2]
        simpa [sortedInsert, if_neg h1, if_neg h2] using ih

/-- Helper: looking up a key no entry carries yields nothing. -/
theorem lookupKey_eq_none {K α : Type} [DecidableEq K] (k : K) (l : List (K × α))
    (h : ∀ p ∈ l, p.1 ≠ k) : lookupKey k l = none := by
  induction l with
  | nil => simp [lookupKey]
  | cons p rest ih =>
    rw [lookupKey, if_neg (h p (List.mem_cons_self _ _))]
    exact ih fun q hq => h q (List.mem_cons_of_mem _ hq)

/-- Helper: on a key-sorted list, the previous value reported by
`sortedInsert` is exactly the map lookup of the key. -/
theorem sortedInsert_old_eq_lookup {K α : Type} [LinearOrder K] (k : K) (v : α)
    (l : List (K × α)) (hs : List.Pairwise (fun a b => a.1 < b.1) l) :
    (sortedInsert k v l).2 = lookupKey k l := by
  induction l with
  | nil => simp [sortedInsert, lookupKey]
  | cons p rest ih =>
    rw [List.pairwise_cons] at hs
    obtain ⟨hlt, hrest⟩ := hs
    by_cases h1 : k < p.1
    · have hne : p.1 ≠ k := fun h => absurd (h ▸ h1) (lt_irrefl _)
      have hnone : lookupKey k rest = none := by
        apply lookupKey_eq_none
        intro q hq
        exact fun h => absurd (h ▸ lt_trans h1 (hlt q hq)) (lt_irrefl _)
      simp [sortedInsert, h1, lookupKey, hne, hnone]
    · by_cases h2 : k = p.1
      · simp [sortedInsert, if_neg h1, h2, lookupKey]
      · have hne : p.1 ≠ k := fun h => h2 h.symm
        simp only [sortedInsert, if_neg h1, if_neg h2, lookupKey, if_neg hne]
        exact ih hrest

/-- Helper: `assocInsert` reports the map lookup of the key as the
previous value. -/
theorem assocInsert_old_eq_lookup {K α : Type} [DecidableEq K] (k : K) (v : α)
    (l : List (K × α)) : (assocInsert k v l).2 = lookupKey k l := by
  induction l with
  | nil => simp [assocInsert, lookupKey]
  | cons p rest ih =>
    by_cases h1 : p.1 = k
    · simp [assocInsert, h1, lookupKey]
    · simp only [assocInsert, if_neg h1, lookupKey]
      exact ih

/-- C9: when a key's index entry points at an empty slot (the key was
promised and never created), `insert` and `promise` under that key panic
while clearing the old slot (`try_remove_unchecked().unwrap()` on `None`)
instead of installing the new entry — in both keyed-graph variants. -/
theorem insert_promised_key_panics {K V : Type} [LinearOrder K]
    (g : BTreeGraph K V) (h : HashGraph K V) (k : K) (v : V) (r rh : Ref)
    (hsort : EntriesSorted g.index)
    (hbl : lookupKey k g.index = some r)
    (hbe : g.graph.nodes[r.slot]? = some none)
    (hhl : lookupKey k h.index = some rh)
    (hhe : h.graph.nodes[rh.slot]? = some none) :
    g.insert k v = none ∧ g.promise k = none ∧
    h.insert k v = none ∧ h.promise k = none := by
  have hblt : r.slot < g.graph.nodes.length := (List.getElem?_eq_some.mp hbe).1
  have hhlt : rh.slot < h.graph.nodes.length := (List.getElem?_eq_some.mp hhe).1
  have holdb : ∀ node : Ref, (sortedInsert k node g.index).2 = some r := fun node => by
    rw [sortedInsert_old_eq_lookup k node g.index hsort, hbl]
  have holdh : ∀ node : Ref, (assocInsert k node h.index).2 = some rh := fun node => by
    rw [assocInsert_old_eq_lookup, hhl]
  refine ⟨?_, ?_, ?_, ?_⟩
  · simp only [BTreeGraph.insert, Graph.insert, holdb]
    rw [List.getElem?_append_left hblt, hbe]
  · simp only [BTreeGraph.promise, Graph.promise, holdb]
    rw [List.getElem?_append_left hblt, hbe]
  · simp only [HashGraph.insert, Graph.insert, holdh]
    rw [List.getElem?_append_left hhlt, hhe]
  · simp only [HashGraph.promise, Graph.promise, holdh]
    rw [List.getElem?_append_left hhlt, hhe]

/-- Witness for C9: a single promised key in each variant. -/
theorem insert_promised_key_panics_witness :
    EntriesSorted [((0 : Nat), (⟨0, 1⟩ : Ref))] ∧
    ((⟨⟨[none], 1⟩, [(0, ⟨0, 1⟩)]⟩ : BTreeGraph Nat Nat).insert 0 5 = none ∧
      (⟨⟨[none], 1⟩, [(0, ⟨0, 1⟩)]⟩ : BTreeGraph Nat Nat).promise 0 = none ∧
      (⟨⟨[none], 1⟩, [(0, ⟨0, 1⟩)]⟩ : HashGraph Nat Nat).insert 0 5 = none ∧
      (⟨⟨[none], 1⟩, [(0, ⟨0, 1⟩)]⟩ : HashGraph Nat Nat).promise 0 = none) :=
  ⟨by unfold EntriesSorted; decide,
    insert_promised_key_panics
      (⟨⟨[none], 1⟩, [(0, ⟨0, 1⟩)]⟩ : BTreeGraph Nat Nat)
      (⟨⟨[none], 1⟩, [(0, ⟨0, 1⟩)]⟩ : HashGraph Nat Nat)
      0 5 ⟨0, 1⟩ ⟨0, 1⟩ (by unfold EntriesSorted; decide) rfl rfl rfl rfl⟩

/-- C2: overwriting an existing key clears the old value's slot, so the
handle returned by the first insert becomes stale (dereferencing it
panics), while the second insert succeeds and returns a fresh usable
handle to the new value. -/
theorem insert_overwrite_invalidates {K V : Type} [LinearOrder K]
    (g : BTreeGraph K V) (k : K) (v1 v2 : V)
    (hg : g.graph.gen ≠ 0)
    (hbound : ∀ p ∈ g.index, p.2.slot < g.graph.nodes.length)
    (g1 : BTreeGraph K V) (r1 : Ref)
    (h1 : g.insert k v1 = some (g1, r1)) :
    ∃ g2 r2, g1.insert k v2 = some (g2, r2) ∧
      g2.graph.borrow r1 = none ∧ g2.graph.borrow r2 = some v2 := by
  have hc : genEq g.graph.gen g.graph.gen = true :=
    (genEq_eq_true_iff _ _).mpr ⟨hg, rfl⟩
  simp only [BTreeGraph.insert, Graph.insert] at h1
  set n := g.graph.nodes.length with hn
  -- Facts common to both branches of the first insert.
  have hmain : g1.index = (sortedInsert k (⟨n, g.graph.gen⟩ : Ref) g.index).1 ∧
      r1 = (⟨n, g.graph.gen⟩ : Ref) ∧
      g1.graph.gen = g.graph.gen ∧
      g1.graph.nodes.length = n + 1 ∧
      g1.graph.nodes[n]? = some (some v1) := by
    split at h1
    · simp only [Option.some_inj, Prod.mk.injEq] at h1
      obtain ⟨rfl, rfl⟩ := h1
      refine ⟨rfl, rfl, rfl, by simp [hn], ?_⟩
      exact List.getElem?_concat_length _ _
    · rename_i oldNode heq
      split at h1
      · simp only [Option.some_inj, Prod.mk.injEq] at h1
        obtain ⟨rfl, rfl⟩ := h1
        have hom : (k, oldNode) ∈ g.index := sortedInsert_old_mem _ _ _ _ heq
        have hos : oldNode.slot < n := hbound (k, oldNode) hom
        refine ⟨rfl, rfl, rfl, by simp [hn], ?_⟩
        show ((g.graph.nodes ++ [some v1]).set oldNode.slot none)[n]? = some (some v1)
        rw [List.getElem?_set_ne (Nat.ne_of_lt hos)]
        exact List.getElem?_concat_length _ _
      · exact Option.noConfusion h1
  obtain ⟨hidx1, hr1, hgen1, hlen1, hval1⟩ := hmain
  -- The second insert finds r1 as the previous entry at k, whose slot
  -- holds v1, so it succeeds and clears that slot.
  have hold2 : (sortedInsert k (⟨g1.graph.nodes.length, g1.graph.gen⟩ : Ref)
      g1.index).2 = some r1 := by
    rw [hidx1, hr1]
    exact sortedInsert_again _ _ _ _
  have hval1' : (g1.graph.nodes ++ [some v2])[r1.slot]? = some (some v1) := by
    rw [hr1]
    rw [List.getElem?_append_left (show n < g1.graph.nodes.length by rw [hlen1]; omega)]
    exact hval1
  refine ⟨⟨⟨(g1.graph.nodes ++ [some v2]).set r1.slot none, g1.graph.gen⟩,
      (sortedInsert k (⟨g1.graph.nodes.length, g1.graph.gen⟩ : Ref) g1.index).1⟩,
    ⟨g1.graph.nodes.length, g1.graph.gen⟩, ?_, ?_, ?_⟩
  · simp only [BTreeGraph.insert, Graph.insert, hold2]
    rw [hval1']
  · -- The stale handle: its generation matches but its slot is now empty.
    have hcc : genEq g1.graph.gen r1.gen = true := by
      rw [hgen1, hr1]
      exact hc
    have hset : ((g1.graph.nodes ++ [some v2]).set r1.slot none)[r1.slot]? =
        some none := by
      apply List.getElem?_set_eq_of_lt
      rw [hr1]
      simp only [List.length_append, List.length_singleton, hlen1]
      omega
    simp only [Graph.borrow, hcc, if_true, Graph.slotValue, hset]
  · -- The fresh handle: dereferences to the new value.
    have hcc : genEq g1.graph.gen g1.graph.gen = true := by
      rw [hgen1]
      exact hc
    have hget : ((g1.graph.nodes ++ [some v2]).set r1.slot
        none)[g1.graph.nodes.length]? = some (some v2) := by
      rw [List.getElem?_set_ne]
      · exact List.getElem?_concat_length _ _
      · rw [hr1]
        simp only [hlen1]
        omega
    simp only [Graph.borrow, hcc, if_true, Graph.slotValue, hget]

/-- Witness for C2: overwrite key 0 in a one-node keyed graph. -/
theorem insert_overwrite_invalidates_witness :
    ((1 : Nat) ≠ 0) ∧
    (∀ p ∈ ([] : List (Nat × Ref)), p.2.slot < 0) ∧
    (⟨⟨[], 1⟩, []⟩ : BTreeGraph Nat Nat).insert 0 10 =
      some (⟨⟨[some 10], 1⟩, [(0, ⟨0, 1⟩)]⟩, ⟨0, 1⟩) ∧
    (∃ g2 r2, (⟨⟨[some 10], 1⟩, [(0, ⟨0, 1⟩)]⟩ : BTreeGraph Nat Nat).insert 0 20 =
        some (g2, r2) ∧
      g2.graph.borrow ⟨0, 1⟩ = none ∧ g2.graph.borrow r2 = some 20) :=
  ⟨by decide, by simp, rfl,
    insert_overwrite_invalidates (⟨⟨[], 1⟩, []⟩ : BTreeGraph Nat Nat) 0 10 20
      (by decide) (by simp) (⟨⟨[some 10], 1⟩, [(0, ⟨0, 1⟩)]⟩ : BTreeGraph Nat Nat)
      ⟨0, 1⟩ rfl⟩

/-- The serialized form of a keyed graph (`impl Serialize for BTreeGraph`,
src/btree_graph.rs): walk the index in its order, dereferencing each
handle (`self.iter()`), producing the key-to-value entry list.  The
`unwrap` inside `iter` panics (`none`) if an indexed slot is empty. -/
def serializeEntries {K V : Type} (gr : Graph V) : List (K × Ref) → Option (List (K × V))
  | [] => some []
  | (k, r) :: rest =>
    match gr.slotValue r.slot with
    | some v => (serializeEntries gr rest).map ((k, v) :: ·)
    | none => none

/-- `impl Serialize for BTreeGraph` applied to a whole keyed graph. -/
def BTreeGraph.serialize {K V : Type} (g : BTreeGraph K V) : Option (List (K × V)) :=
  serializeEntries g.graph g.index

/-- One step of `impl Deserialize for BTreeGraph`'s `visit_map` loop:
`let node = graph.insert(value); index.insert(key, node);` (no clearing of
old slots: the raw map insert). -/
def deserializeStep {K V : Type} [LinearOrder K] (g : BTreeGraph K V) (p : K × V) :
    BTreeGraph K V :=
  ⟨(g.graph.insert p.2).1, (sortedInsert p.1 (g.graph.insert p.2).2 g.index).1⟩

/-- A freshly constructed empty keyed graph (`BTreeGraph::new`), with the
generation tag its new arena received. -/
def BTreeGraph.empty (K V : Type) (gn : Nat) : BTreeGraph K V := ⟨⟨[], gn⟩, []⟩

/-- `impl Deserialize for BTreeGraph`: rebuild a fresh graph by the
insert-and-index loop over the decoded entries in encounter order. -/
def BTreeGraph.deserialize {K V : Type} [LinearOrder K] (entries : List (K × V))
    (gn : Nat) : BTreeGraph K V :=
  entries.foldl deserializeStep (BTreeGraph.empty K V gn)

/-- Building a keyed graph by successive public `insert` calls starting
from a fresh graph; a panic in any insert propagates. -/
def BTreeGraph.build {K V : Type} [LinearOrder K] (pairs : List (K × V)) (gn : Nat) :
    Option (BTreeGraph K V) :=
  pairs.foldlM (fun g p => (g.insert p.1 p.2).map Prod.fst) (BTreeGraph.empty K V gn)

/-- The key-to-value mapping described by a sequence of inserts: a sorted
association list updated last-wins. -/
def modelMap {K V : Type} [LinearOrder K] (pairs : List (K × V)) : List (K × V) :=
  pairs.foldl (fun acc p => (sortedInsert p.1 p.2 acc).1) []

/-- The state invariant of a keyed graph reachable by public inserts: the
index is key-sorted, every indexed handle is in bounds, no two entries
share a slot, and every indexed slot is occupied. -/
def Wf {K V : Type} [LT K] (g : BTreeGraph K V) : Prop :=
  EntriesSorted g.index ∧
  (∀ p ∈ g.index, p.2.slot < g.graph.nodes.length) ∧
  List.Pairwise (fun a b : K × Ref => a.2.slot ≠ b.2.slot) g.index ∧
  ∀ p ∈ g.index, (g.graph.slotValue p.2.slot).isSome

/-- Helper: slot reads agree when the underlying lookups agree. -/
theorem slotValue_eq {V : Type} (g g2 : Graph V) (i : Nat)
    (h : g2.nodes[i]? = g.nodes[i]?) : g2.slotValue i = g.slotValue i := by
  simp only [Graph.slotValue, h]

/-- Helper: a slot read returns a value iff the lookup finds that filled
slot. -/
theorem slotValue_eq_some_iff {V : Type} (g : Graph V) (i : Nat) (w : V) :
    g.slotValue i = some w ↔ g.nodes[i]? = some (some w) := by
  unfold Graph.slotValue
  cases h : g.nodes[i]? with
  | none => simp
  | some o => cases o <;> simp

/-- Helper: reading the freshly appended filled slot. -/
theorem slotValue_concat {V : Type} (nodes : List (Option V)) (gn : Nat) (v : V) :
    (⟨nodes ++ [some v], gn⟩ : Graph V).slotValue nodes.length = some v := by
  rw [slotValue_eq_some_iff]
  exact List.getElem?_concat_length _ _

/-- Helper: serialization ignores the arena as long as the indexed slots
read the same. -/
theorem serializeEntries_congr {K V : Type} (gr gr2 : Graph V) (l : List (K × Ref))
    (h : ∀ p ∈ l, gr2.slotValue p.2.slot = gr.slotValue p.2.slot) :
    serializeEntries gr2 l = serializeEntries gr l := by
  induction l with
  | nil => rfl
  | cons p rest ih =>
    obtain ⟨k0, r0⟩ := p
    simp only [serializeEntries]
    rw [h (k0, r0) (List.mem_cons_self _ _),
      ih fun q hq => h q (List.mem_cons_of_mem _ hq)]

/-- Helper: serialization preserves the key sequence. -/
theorem serializeEntries_keys {K V : Type} (gr : Graph V) (l : List (K × Ref))
    (m : List (K × V)) (h : serializeEntries gr l = some m) :
    m.map Prod.fst = l.map Prod.fst := by
  induction l generalizing m with
  | nil =>
    simp only [serializeEntries, Option.some_inj] at h
    subst h
    rfl
  | cons p rest ih =>
    obtain ⟨k0, r0⟩ := p
    cases hw : gr.slotValue r0.slot with
    | none => simp [serializeEntries, hw] at h
    | some w =>
      simp only [serializeEntries, hw, Option.map_eq_some'] at h
      obtain ⟨mrest, hmrest, rfl⟩ := h
      simp [ih mrest hmrest]

/-- Helper: serialization distributes over concatenated index segments. -/
theorem serializeEntries_append {K V : Type} (gr : Graph V) (l1 l2 : List (K × Ref)) :
    serializeEntries gr (l1 ++ l2) =
      (serializeEntries gr l1).bind fun s1 => (serializeEntries gr l2).map (s1 ++ ·) := by
  induction l1 with
  | nil =>
    cases h2 : serializeEntries gr l2 <;> simp [serializeEntries, h2]
  | cons p rest ih =>
    obtain ⟨k0, r0⟩ := p
    cases hw : gr.slotValue r0.slot with
    | none => simp [serializeEntries, hw]
    | some w =>
      simp only [List.cons_append, serializeEntries, hw, ih]
      cases hr : serializeEntries gr rest <;>
        cases h2 : serializeEntries gr l2 <;> simp [ih, hr, h2]

/-- Helper: entries of an updated map come from the new pair or the old
map. -/
theorem sortedInsert_mem_weak {K α : Type} [LinearOrder K] (k : K) (v : α)
    (l : List (K × α)) (q : K × α) (hq : q ∈ (sortedInsert k v l).1) :
    q = (k, v) ∨ q ∈ l := by
  induction l with
  | nil =>
    simp only [sortedInsert, List.mem_singleton] at hq
    exact Or.inl hq
  | cons p rest ih =>
    by_cases h1 : k < p.1
    · simp only [sortedInsert, if_pos h1, List.mem_cons] at hq
      rcases hq with rfl | hq
      · exact Or.inl rfl
      · exact Or.inr (List.mem_cons.mpr hq)
    · by_cases h2 : k = p.1
      · simp only [sortedInsert, if_neg h1, if_pos h2, List.mem_cons] at hq
        rcases hq with rfl | hq
        · exact Or.inl rfl
        · exact Or.inr (List.mem_cons_of_mem _ hq)
      · simp only [sortedInsert, if_neg h1, if_neg h2, List.mem_cons] at hq
        rcases hq with rfl | hq
        · exact Or.inr (List.mem_cons_self _ _)
        · rcases ih hq with h | h
          · exact Or.inl h
          · exact Or.inr (List.mem_cons_of_mem _ h)

/-- Helper: on a sorted map, entries of the updated map other than the new
pair come from the old map and carry a different key. -/
theorem sortedInsert_mem_sorted {K α : Type} [LinearOrder K] (k : K) (v : α)
    (l : List (K × α)) (hs : List.Pairwise (fun a b => a.1 < b.1) l) (q : K × α)
    (hq : q ∈ (sortedInsert k v l).1) : q = (k, v) ∨ (q ∈ l ∧ q.1 ≠ k) := by
  induction l with
  | nil =>
    simp only [sortedInsert, List.mem_singleton] at hq
    exact Or.inl hq
  | cons p rest ih =>
    rw [List.pairwise_cons] at hs
    obtain ⟨hlt, hrest⟩ := hs
    by_cases h1 : k < p.1
    · simp only [sortedInsert, if_pos h1, List.mem_cons] at hq
      rcases hq with rfl | rfl | hq
      · exact Or.inl rfl
      · exact Or.inr ⟨List.mem_cons_self _ _, fun h => absurd (h ▸ h1) (lt_irrefl _)⟩
      · refine Or.inr ⟨List.mem_cons_of_mem _ hq, fun h => ?_⟩
        exact absurd (h ▸ lt_trans h1 (hlt q hq)) (lt_irrefl _)
    · by_cases h2 : k = p.1
      · simp only [sortedInsert, if_neg h1, if_pos h2, List.mem_cons] at hq
        rcases hq with rfl | hq
        · exact Or.inl rfl
        · refine Or.inr ⟨List.mem_cons_of_mem _ hq, fun h => ?_⟩
          exact absurd ((h2 ▸ h) ▸ hlt q hq) (lt_irrefl _)
      · simp only [sortedInsert, if_neg h1, if_neg h2, List.mem_cons] at hq
        rcases hq with rfl | hq
        · exact Or.inr ⟨List.mem_cons_self _ _, fun h => h2 h.symm⟩
        · rcases ih hrest hq with h | ⟨hm, hk⟩
          · exact Or.inl h
          · exact Or.inr ⟨List.mem_cons_of_mem _ hm, hk⟩

/-- Helper: updating a sorted map keeps it sorted. -/
theorem sortedInsert_sorted {K α : Type} [LinearOrder K] (k : K) (v : α)
    (l : List (K × α)) (hs : List.Pairwise (fun a b => a.1 < b.1) l) :
    List.Pairwise (fun a b => a.1 < b.1) (sortedInsert k v l).1 := by
  induction l with
  | nil => simp [sortedInsert]
  | cons p rest ih =>
    rw [List.pairwise_cons] at hs
    obtain ⟨hlt, hrest⟩ := hs
    by_cases h1 : k < p.1
    · simp only [sortedInsert, if_pos h1, List.pairwise_cons, List.mem_cons]
      refine ⟨?_, hlt, hrest⟩
      rintro q (rfl | hq)
      · exact h1
      · exact lt_trans h1 (hlt q hq)
    · by_cases h2 : k = p.1
      · simp only [sortedInsert, if_neg h1, if_pos h2, List.pairwise_cons]
        exact ⟨fun q hq => h2 ▸ hlt q hq, hrest⟩
      · have h3 : p.1 < k := lt_of_le_of_ne (le_of_not_lt h1) fun h => h2 h.symm
        simp only [sortedInsert, if_neg h1, if_neg h2, List.pairwise_cons]
        refine ⟨fun q hq => ?_, ih hrest⟩
        rcases sortedInsert_mem_weak k v rest q hq with rfl | hq'
        · exact h3
        · exact hlt q hq'

/-- Helper: updating a map preserves any pairwise relation that the new
pair satisfies against every old entry. -/
theorem sortedInsert_pairwise {K α : Type} [LinearOrder K]
    (R : K × α → K × α → Prop) (k : K) (v : α) (l : List (K × α))
    (hp : List.Pairwise R l) (h1 : ∀ p ∈ l, R p (k, v)) (h2 : ∀ p ∈ l, R (k, v) p) :
    List.Pairwise R (sortedInsert k v l).1 := by
  induction l with
  | nil => simp [sortedInsert]
  | cons p rest ih =>
    rw [List.pairwise_cons] at hp
    obtain ⟨hRp, hprest⟩ := hp
    by_cases hc1 : k < p.1
    · simp only [sortedInsert, if_pos hc1, List.pairwise_cons, List.mem_cons]
      refine ⟨?_, hRp, hprest⟩
      rintro q (rfl | hq)
      · exact h2 q (List.mem_cons_self _ _)
      · exact h2 q (List.mem_cons_of_mem _ hq)
    · by_cases hc2 : k = p.1
      · simp only [sortedInsert, if_neg hc1, if_pos hc2, List.pairwise_cons]
        exact ⟨fun q hq => h2 q (List.mem_cons_of_mem _ hq), hprest⟩
      · simp only [sortedInsert, if_neg hc1, if_neg hc2, List.pairwise_cons]
        refine ⟨fun q hq => ?_, ?_⟩
        · rcases sortedInsert_mem_weak k v rest q hq with rfl | hq'
          · exact h1 p (List.mem_cons_self _ _)
          · exact hRp q hq'
        · exact ih hprest (fun q hq => h1 q (List.mem_cons_of_mem _ hq))
            (fun q hq => h2 q (List.mem_cons_of_mem _ hq))

/-- Helper: inserting a key above every present key appends the entry. -/
theorem sortedInsert_append_of_gt {K α : Type} [LinearOrder K] (k : K) (v : α)
    (l : List (K × α)) (h : ∀ p ∈ l, p.1 < k) :
    sortedInsert k v l = (l ++ [(k, v)], none) := by
  induction l with
  | nil => rfl
  | cons p rest ih =>
    have hp : p.1 < k := h p (List.mem_cons_self _ _)
    have h1 : ¬k < p.1 := not_lt_of_gt hp
    have h2 : k ≠ p.1 := fun hh => absurd (hh ▸ hp) (lt_irrefl _)
    simp only [sortedInsert, if_neg h1, if_neg h2,
      ih fun q hq => h q (List.mem_cons_of_mem _ hq), List.cons_append]

/-- Helper: updating the index and the serialized map in lockstep: if the
old index serializes to `m` under the old arena, the new arena reads the
new handle's slot as `v` and reads every surviving slot unchanged, then
the updated index serializes under the new arena to the updated map. -/
theorem serializeEntries_insert {K V : Type} [LinearOrder K] (gr gr2 : Graph V)
    (k : K) (node : Ref) (v : V) (l : List (K × Ref)) (m : List (K × V))
    (hs : List.Pairwise (fun a b => a.1 < b.1) l)
    (hser : serializeEntries gr l = some m)
    (hcongr : ∀ p ∈ l, p.1 ≠ k → gr2.slotValue p.2.slot = gr.slotValue p.2.slot)
    (hnode : gr2.slotValue node.slot = some v) :
    serializeEntries gr2 (sortedInsert k node l).1 = some (sortedInsert k v m).1 := by
  induction l generalizing m with
  | nil =>
    simp only [serializeEntries, Option.some_inj] at hser
    subst hser
    simp [sortedInsert, serializeEntries, hnode]
  | cons p rest ih =>
    obtain ⟨k0, r0⟩ := p
    rw [List.pairwise_cons] at hs
    obtain ⟨hlt, hrest⟩ := hs
    cases hw : gr.slotValue r0.slot with
    | none => simp [serializeEntries, hw] at hser
    | some w =>
      simp only [serializeEntries, hw, Option.map_eq_some'] at hser
      obtain ⟨mrest, hmrest, rfl⟩ := hser
      by_cases h1 : k < k0
      · have hcall : ∀ p ∈ (k0, r0) :: rest,
            gr2.slotValue p.2.slot = gr.slotValue p.2.slot := by
          intro q hq
          apply hcongr q hq
          intro hqk
          rcases List.mem_cons.mp hq with h | h
          · rw [h] at hqk
            exact absurd (hqk ▸ h1) (lt_irrefl _)
          · have hgt := hlt q h
            rw [hqk] at hgt
            exact absurd (lt_trans h1 hgt) (lt_irrefl _)
        have hr0 : gr2.slotValue r0.slot = some w :=
          (hcall (k0, r0) (List.mem_cons_self _ _)).trans hw
        have hrest2 : serializeEntries gr2 rest = some mrest := by
          rw [serializeEntries_congr gr gr2 rest
            fun q hq => hcall q (List.mem_cons_of_mem _ hq)]
          exact hmrest
        simp [sortedInsert, if_pos h1, serializeEntries, hnode, hr0, hrest2]
      · by_cases h2 : k = k0
        · have hrest2 : serializeEntries gr2 rest = some mrest := by
            rw [serializeEntries_congr gr gr2 rest fun q hq =>
              hcongr q (List.mem_cons_of_mem _ hq) fun h =>
                absurd ((h2 ▸ h) ▸ hlt q hq) (lt_irrefl _)]
            exact hmrest
          simp [sortedInsert, if_neg h1, if_pos h2, serializeEntries, hnode, hrest2]
        · have hne : k0 ≠ k := fun h => h2 h.symm
          have hq0 : gr2.slotValue r0.slot = some w :=
            (hcongr (k0, r0) (List.mem_cons_self _ _) hne).trans hw
          simp only [sortedInsert, if_neg h1, if_neg h2, serializeEntries, hq0]
          rw [ih mrest hrest hmrest
            fun q hq hqk => hcongr q (List.mem_cons_of_mem _ hq) hqk]
          rfl

/-- Helper: on a well-formed keyed graph, the public `insert` always
succeeds, preserves well-formedness, and updates the serialized view by a
last-wins map update. -/
theorem insert_wf {K V : Type} [LinearOrder K] (g : BTreeGraph K V) (m : List (K × V))
    (k : K) (v : V) (hw : Wf g) (hser : g.serialize = some m) :
    ∃ g', g.insert k v = some (g', (⟨g.graph.nodes.length, g.graph.gen⟩ : Ref)) ∧
      Wf g' ∧ g'.serialize = some (sortedInsert k v m).1 := by
  obtain ⟨⟨nodes0, gn0⟩, idx0⟩ := g
  obtain ⟨hsort, hbound, hdist, hocc⟩ := hw
  dsimp only at hsort hbound hdist hocc hser ⊢
  have hnode : (⟨nodes0 ++ [some v], gn0⟩ : Graph V).slotValue nodes0.length = some v :=
    slotValue_concat nodes0 gn0 v
  have hpres : ∀ i, i < nodes0.length →
      (⟨nodes0 ++ [some v], gn0⟩ : Graph V).slotValue i =
        (⟨nodes0, gn0⟩ : Graph V).slotValue i := by
    intro i hi
    exact slotValue_eq _ _ _ (List.getElem?_append_left hi)
  cases hres : (sortedInsert k (⟨nodes0.length, gn0⟩ : Ref) idx0).2 with
  | none =>
    refine ⟨⟨⟨nodes0 ++ [some v], gn0⟩,
        (sortedInsert k (⟨nodes0.length, gn0⟩ : Ref) idx0).1⟩, ?_, ?_, ?_⟩
    · simp only [BTreeGraph.insert, Graph.insert, hres]
    · refine ⟨sortedInsert_sorted _ _ _ hsort, ?_, ?_, ?_⟩
      · intro p hp
        rcases sortedInsert_mem_weak _ _ _ p hp with rfl | hp'
        · show nodes0.length < (nodes0 ++ [some v]).length
          simp
        · have := hbound p hp'
          show p.2.slot < (nodes0 ++ [some v]).length
          simp only [List.length_append, List.length_singleton]
          omega
      · apply sortedInsert_pairwise _ _ _ _ hdist
        · intro p hp
          have := hbound p hp
          show p.2.slot ≠ nodes0.length
          omega
        · intro p hp
          have := hbound p hp
          show nodes0.length ≠ p.2.slot
          omega
      · intro p hp
        rcases sortedInsert_mem_weak _ _ _ p hp with rfl | hp'
        · show ((⟨nodes0 ++ [some v], gn0⟩ : Graph V).slotValue nodes0.length).isSome
          rw [hnode]
          rfl
        · show ((⟨nodes0 ++ [some v], gn0⟩ : Graph V).slotValue p.2.slot).isSome
          rw [hpres p.2.slot (hbound p hp')]
          exact hocc p hp'
    · show serializeEntries (⟨nodes0 ++ [some v], gn0⟩ : Graph V)
        (sortedInsert k (⟨nodes0.length, gn0⟩ : Ref) idx0).1 =
        some (sortedInsert k v m).1
      apply serializeEntries_insert (⟨nodes0, gn0⟩ : Graph V) _ k _ v idx0 m hsort hser
      · intro p hp _
        exact hpres p.2.slot (hbound p hp)
      · exact hnode
  | some oldNode =>
    have hom : (k, oldNode) ∈ idx0 := sortedInsert_old_mem _ _ _ _ hres
    have hos : oldNode.slot < nodes0.length := hbound _ hom
    obtain ⟨w, hwv⟩ := Option.isSome_iff_exists.mp (hocc _ hom)
    have hwv2 : (⟨nodes0 ++ [some v], gn0⟩ : Graph V).slotValue oldNode.slot = some w := by
      rw [hpres _ hos]
      exact hwv
    have hget : (nodes0 ++ [some v])[oldNode.slot]? = some (some w) :=
      (slotValue_eq_some_iff _ _ _).mp hwv2
    have hpres2 : ∀ i, i ≠ oldNode.slot →
        (⟨(nodes0 ++ [some v]).set oldNode.slot none, gn0⟩ : Graph V).slotValue i =
          (⟨nodes0 ++ [some v], gn0⟩ : Graph V).slotValue i := by
      intro i hi
      exact slotValue_eq _ _ _ (List.getElem?_set_ne (Ne.symm hi))
  -- Surviving entries (key different from the overwritten one) keep their
  -- slots, which are distinct from the cleared slot.
    have hkey : ∀ p ∈ idx0, p.1 ≠ k → p.2.slot ≠ oldNode.slot := by
      intro p hp hpk
      have hneq : p ≠ (k, oldNode) := fun h => hpk (by rw [h])
      exact List.Pairwise.forall (fun a b h => fun e => h e.symm) hdist hp hom hneq
    refine ⟨⟨⟨(nodes0 ++ [some v]).set oldNode.slot none, gn0⟩,
        (sortedInsert k (⟨nodes0.length, gn0⟩ : Ref) idx0).1⟩, ?_, ?_, ?_⟩
    · simp only [BTreeGraph.insert, Graph.insert, hres, hget]
    · refine ⟨sortedInsert_sorted _ _ _ hsort, ?_, ?_, ?_⟩
      · intro p hp
        rcases sortedInsert_mem_weak _ _ _ p hp with rfl | hp'
        · show nodes0.length < ((nodes0 ++ [some v]).set oldNode.slot none).length
          simp
        · have := hbound p hp'
          show p.2.slot < ((nodes0 ++ [some v]).set oldNode.slot none).length
          simp only [List.length_set, List.length_append, List.length_singleton]
          omega
      · apply sortedInsert_pairwise _ _ _ _ hdist
        · intro p hp
          have := hbound p hp
          show p.2.slot ≠ nodes0.length
          omega
        · intro p hp
          have := hbound p hp
          show nodes0.length ≠ p.2.slot
          omega
      · intro p hp
        rcases sortedInsert_mem_sorted _ _ _ hsort p hp with rfl | ⟨hp', hpk⟩
        · show ((⟨(nodes0 ++ [some v]).set oldNode.slot none, gn0⟩ : Graph V).slotValue
            nodes0.length).isSome
          rw [hpres2 _ (Ne.symm (Nat.ne_of_lt hos)), hnode]
          rfl
        · show ((⟨(nodes0 ++ [some v]).set oldNode.slot none, gn0⟩ : Graph V).slotValue
            p.2.slot).isSome
          rw [hpres2 _ (hkey p hp' hpk), hpres _ (hbound p hp')]
          exact hocc p hp'
    · show serializeEntries (⟨(nodes0 ++ [some v]).set oldNode.slot none, gn0⟩ : Graph V)
        (sortedInsert k (⟨nodes0.length, gn0⟩ : Ref) idx0).1 =
        some (sortedInsert k v m).1
      apply serializeEntries_insert (⟨nodes0, gn0⟩ : Graph V) _ k _ v idx0 m hsort hser
      · intro p hp hpk
        rw [hpres2 _ (hkey p hp hpk)]
        exact hpres _ (hbound p hp)
      · show (⟨(nodes0 ++ [some v]).set oldNode.slot none, gn0⟩ : Graph V).slotValue
          nodes0.length = some v
        rw [hpres2 _ (Ne.symm (Nat.ne_of_lt hos))]
        exact hnode

/-- Helper: a fresh keyed graph is well-formed and serializes to the
empty map. -/
theorem wf_empty {K V : Type} [LinearOrder K] (gn : Nat) :
    Wf (BTreeGraph.empty K V gn) ∧ (BTreeGraph.empty K V gn).serialize = some [] :=
  ⟨⟨List.Pairwise.nil, by simp [BTreeGraph.empty], List.Pairwise.nil,
    by simp [BTreeGraph.empty]⟩, rfl⟩

/-- Helper: building by public inserts from a well-formed start always
succeeds and serializes to the corresponding sequence of map updates. -/
theorem build_fold_wf {K V : Type} [LinearOrder K] (pairs : List (K × V)) :
    ∀ (g0 : BTreeGraph K V) (m0 : List (K × V)), Wf g0 → g0.serialize = some m0 →
      ∃ g, pairs.foldlM (fun g p => (g.insert p.1 p.2).map Prod.fst) g0 = some g ∧
        Wf g ∧
        g.serialize = some (pairs.foldl (fun acc p => (sortedInsert p.1 p.2 acc).1) m0) := by
  induction pairs with
  | nil =>
    intro g0 m0 hw hs
    exact ⟨g0, rfl, hw, hs⟩
  | cons p rest ih =>
    intro g0 m0 hw hs
    obtain ⟨g1, hins, hw1, hs1⟩ := insert_wf g0 m0 p.1 p.2 hw hs
    obtain ⟨g, hfold, hwg, hsg⟩ := ih g1 (sortedInsert p.1 p.2 m0).1 hw1 hs1
    refine ⟨g, ?_, hwg, hsg⟩
    rw [List.foldlM_cons, hins]
    simpa using hfold

/-- Helper: the model map of an insert sequence is key-sorted. -/
theorem modelMap_sorted {K V : Type} [LinearOrder K] (pairs : List (K × V)) :
    List.Pairwise (fun a b : K × V => a.1 < b.1) (modelMap pairs) := by
  suffices h : ∀ (l : List (K × V)) (acc : List (K × V)),
      List.Pairwise (fun a b : K × V => a.1 < b.1) acc →
      List.Pairwise (fun a b : K × V => a.1 < b.1)
        (l.foldl (fun acc p => (sortedInsert p.1 p.2 acc).1) acc) from
    h pairs [] List.Pairwise.nil
  intro l
  induction l with
  | nil => intro acc h; exact h
  | cons p rest ih =>
    intro acc h
    exact ih _ (sortedInsert_sorted _ _ _ h)

/-- Helper: deserializing entries whose keys are strictly ascending and
above every key already present appends them one by one, preserving
well-formedness and extending the serialized view. -/
theorem deser_fold {K V : Type} [LinearOrder K] (m : List (K × V)) :
    ∀ (g : BTreeGraph K V) (s : List (K × V)), Wf g → g.serialize = some s →
      (∀ q ∈ m, ∀ p ∈ g.index, p.1 < q.1) →
      List.Pairwise (fun a b : K × V => a.1 < b.1) m →
      Wf (m.foldl deserializeStep g) ∧
      (m.foldl deserializeStep g).serialize = some (s ++ m) ∧
      (m.foldl deserializeStep g).index.map Prod.fst =
        g.index.map Prod.fst ++ m.map Prod.fst := by
  induction m with
  | nil =>
    intro g s hw hs _ _
    exact ⟨hw, by simpa using hs, by simp⟩
  | cons q mrest ih =>
    intro g s hw hs habove hsorted
    obtain ⟨k, v⟩ := q
    rw [List.pairwise_cons] at hsorted
    obtain ⟨hklt, hmrest⟩ := hsorted
    obtain ⟨⟨nodes0, gn0⟩, idx0⟩ := g
    obtain ⟨hsort, hbound, hdist, hocc⟩ := hw
    dsimp only at hsort hbound hdist hocc hs habove
    have hgtidx : ∀ p ∈ idx0, p.1 < k :=
      fun p hp => habove (k, v) (List.mem_cons_self _ _) p hp
    have happ : sortedInsert k (⟨nodes0.length, gn0⟩ : Ref) idx0 =
        (idx0 ++ [(k, ⟨nodes0.length, gn0⟩)], none) :=
      sortedInsert_append_of_gt _ _ _ hgtidx
    have hstep : deserializeStep (⟨⟨nodes0, gn0⟩, idx0⟩ : BTreeGraph K V) (k, v) =
        ⟨⟨nodes0 ++ [some v], gn0⟩, idx0 ++ [(k, ⟨nodes0.length, gn0⟩)]⟩ := by
      simp only [deserializeStep, Graph.insert, happ]
    have hnode : (⟨nodes0 ++ [some v], gn0⟩ : Graph V).slotValue nodes0.length = some v :=
      slotValue_concat nodes0 gn0 v
    have hpres : ∀ i, i < nodes0.length →
        (⟨nodes0 ++ [some v], gn0⟩ : Graph V).slotValue i =
          (⟨nodes0, gn0⟩ : Graph V).slotValue i := by
      intro i hi
      exact slotValue_eq _ _ _ (List.getElem?_append_left hi)
    -- Well-formedness of the extended graph.
    have hw1 : Wf (⟨⟨nodes0 ++ [some v], gn0⟩,
        idx0 ++ [(k, ⟨nodes0.length, gn0⟩)]⟩ : BTreeGraph K V) := by
      refine ⟨?_, ?_, ?_, ?_⟩
      · rw [EntriesSorted, List.pairwise_append]
        refine ⟨hsort, by simp, ?_⟩
        intro p hp q hq
        rw [List.mem_singleton] at hq
        subst hq
        exact hgtidx p hp
      · intro p hp
        rw [List.mem_append, List.mem_singleton] at hp
        rcases hp with hp | rfl
        · have := hbound p hp
          show p.2.slot < (nodes0 ++ [some v]).length
          simp only [List.length_append, List.length_singleton]
          omega
        · show nodes0.length < (nodes0 ++ [some v]).length
          simp
      · rw [List.pairwise_append]
        refine ⟨hdist, by simp, ?_⟩
        intro p hp q hq
        rw [List.mem_singleton] at hq
        subst hq
        have := hbound p hp
        show p.2.slot ≠ nodes0.length
        omega
      · intro p hp
        rw [List.mem_append, List.mem_singleton] at hp
        rcases hp with hp | rfl
        · show ((⟨nodes0 ++ [some v], gn0⟩ : Graph V).slotValue p.2.slot).isSome
          rw [hpres _ (hbound p hp)]
          exact hocc p hp
        · show ((⟨nodes0 ++ [some v], gn0⟩ : Graph V).slotValue nodes0.length).isSome
          rw [hnode]
          rfl
    -- Serialization of the extended graph.
    have hs1 : (⟨⟨nodes0 ++ [some v], gn0⟩,
        idx0 ++ [(k, ⟨nodes0.length, gn0⟩)]⟩ : BTreeGraph K V).serialize =
        some (s ++ [(k, v)]) := by
      show serializeEntries (⟨nodes0 ++ [some v], gn0⟩ : Graph V)
        (idx0 ++ [(k, ⟨nodes0.length, gn0⟩)]) = some (s ++ [(k, v)])
      rw [serializeEntries_append]
      have h1 : serializeEntries (⟨nodes0 ++ [some v], gn0⟩ : Graph V) idx0 = some s := by
        rw [serializeEntries_congr (⟨nodes0, gn0⟩ : Graph V) _ idx0
          fun p hp => hpres _ (hbound p hp)]
        exact hs
      have h2 : serializeEntries (⟨nodes0 ++ [some v], gn0⟩ : Graph V)
          [((k : K), (⟨nodes0.length, gn0⟩ : Ref))] = some [(k, v)] := by
        simp [serializeEntries, hnode]
      rw [h1, h2]
      rfl
    -- Apply the induction hypothesis to the extended graph.
    have habove1 : ∀ q' ∈ mrest, ∀ p ∈ (idx0 ++ [(k, ⟨nodes0.length, gn0⟩)] :
        List (K × Ref)), p.1 < q'.1 := by
      intro q' hq' p hp
      rw [List.mem_append, List.mem_singleton] at hp
      rcases hp with hp | rfl
      · exact habove q' (List.mem_cons_of_mem _ hq') p hp
      · exact hklt q' hq'
    obtain ⟨hwf, hsf, hkf⟩ := ih
      (⟨⟨nodes0 ++ [some v], gn0⟩, idx0 ++ [(k, ⟨nodes0.length, gn0⟩)]⟩ : BTreeGraph K V)
      (s ++ [(k, v)]) hw1 hs1 habove1 hmrest
    rw [List.foldl_cons, hstep]
    refine ⟨hwf, ?_, ?_⟩
    · rw [hsf]
      simp
    · rw [hkf]
      simp

/-- C6: building a keyed graph by inserting a sequence of (key, value)
pairs always succeeds; serializing it yields the ordered key-to-value
mapping; deserializing that form into a fresh keyed graph (any arena
generation) reproduces exactly the same key sequence and the same
serialized key-to-value mapping, i.e. the same key set with equal values
per key. -/
theorem btreegraph_roundtrip {K V : Type} [LinearOrder K] (pairs : List (K × V))
    (gn gn2 : Nat) :
    ∃ g m, BTreeGraph.build pairs gn = some g ∧
      g.serialize = some m ∧
      (BTreeGraph.deserialize m gn2).index.map Prod.fst = g.index.map Prod.fst ∧
      (BTreeGraph.deserialize m gn2).serialize = some m := by
  obtain ⟨hwe, hse⟩ := wf_empty (K := K) (V := V) gn
  obtain ⟨g, hbuild, hwg, hsg⟩ := build_fold_wf pairs (BTreeGraph.empty K V gn) [] hwe hse
  refine ⟨g, modelMap pairs, hbuild, hsg, ?_, ?_⟩
  · obtain ⟨hwe2, hse2⟩ := wf_empty (K := K) (V := V) gn2
    obtain ⟨-, -, hkeys⟩ := deser_fold (modelMap pairs) (BTreeGraph.empty K V gn2) []
      hwe2 hse2 (by simp [BTreeGraph.empty]) (modelMap_sorted pairs)
    rw [BTreeGraph.deserialize, hkeys]
    have := serializeEntries_keys g.graph g.index (modelMap pairs) hsg
    simp [BTreeGraph.empty, this]
  · obtain ⟨hwe2, hse2⟩ := wf_empty (K := K) (V := V) gn2
    obtain ⟨-, hser, -⟩ := deser_fold (modelMap pairs) (BTreeGraph.empty K V gn2) []
      hwe2 hse2 (by simp [BTreeGraph.empty]) (modelMap_sorted pairs)
    rw [BTreeGraph.deserialize, hser]
    simp

end GraphLib
